import Mathlib

/-!
Verification development for `tsfresh/feature_extraction/settings.py`
(earthgecko/tsfresh fork).

The module under study is pure configuration code:

* `from_columns` decodes generated column names
  (`kind__calculator[__param_value ...]`) back into a mapping
  kind -> calculator -> parameter configuration;
* `ComprehensiveFCParameters` and its four subclasses build the default
  parameter grids by introspecting the `feature_calculators` module and then
  deleting entries by capability flags.

Embedding choices:

* Python strings are `List Char` (named `Str` below); splitting on the
  `"__"` separator is the structural function `splitDunder`, matching
  Python `str.split("__")` left-to-right non-overlapping semantics.
* Python dicts are association lists in insertion order; assignment is
  `alistInsert` (replace in place, else append), `del` is `eraseKey`,
  lookup is `alookup`.  This matches CPython's ordered-dict observable
  behaviour for the operations the source uses.
* The `feature_calculators` module is not part of the sources given; it is
  modelled abstractly as a list of named attribute records (`FCAttr`)
  carrying exactly the metadata the source reads (`callable`, `fctype`
  presence, positional-argument count, `minimal`, `high_comp_cost`,
  `input`, `index_type`).
* Numeric parameter values are modelled as exact decimal literals
  (`NumLit`), not IEEE floats: the claims under study are structural
  (key sets, ordering, error behaviour, round-tripping of tokens), and the
  codec contract is assumed stable per the spec.
* Fallible Python code (raising) is `Except PyErr`.
-/

/-! ## Python strings and the `__` separator -/

abbrev Str := List Char

/-- Python `col.split('__')`: split left-to-right on non-overlapping
occurrences of two consecutive underscores. -/
def splitDunder : Str → List Str
  | [] => [[]]
  | [c] => [[c]]
  | c1 :: c2 :: rest =>
    if c1 = '_' ∧ c2 = '_' then
      [] :: splitDunder rest
    else
      match splitDunder (c2 :: rest) with
      | [] => [[c1]]
      | f :: fs => (c1 :: f) :: fs

/-- Holds (`true`) when the string contains no two consecutive underscores. -/
def noDunder : Str → Bool
  | [] => true
  | [_] => true
  | c1 :: c2 :: rest => !(c1 = '_' ∧ c2 = '_' : Bool) && noDunder (c2 :: rest)

/-- Holds (`true`) when the string ends in an underscore. -/
def endsU : Str → Bool
  | [] => false
  | [c] => c = '_'
  | _ :: c :: rest => endsU (c :: rest)

/-- A field of a column name that survives the `__` wire format: it contains
no `__` and does not end in `_` (a trailing underscore would fuse with the
following separator). -/
def cleanField (s : Str) : Bool := noDunder s && !endsU s

/-- Join fields with the `__` separator (inverse direction of
`splitDunder`). -/
def joinD : List Str → Str
  | [] => []
  | [f] => f
  | f :: fs => f ++ '_' :: '_' :: joinD fs

/-! ## Parameter values and the config-string codec

`get_config_from_string` lives in `tsfresh/utilities/string_manipulation.py`,
which is not among the given sources; everything in this section is
modelled from the spec (section 6): one parameter token has the shape
`name_value`; it is split at its last underscore and the value part is
coerced (string → number / boolean, tuples for composite parameters). -/

/-- An exact decimal numeral: optional sign, integer part, optional
fraction digits (kept verbatim as characters). -/
structure NumLit where
  neg : Bool
  ip : Nat
  fp : Option (List Char)
deriving DecidableEq, Repr

/-- A typed parameter value as decoded by the config-string codec:
boolean, numeric literal, the float specials, a plain string, or a tuple
of numerals (composite parameters such as `widths`). -/
inductive PVal where
  | pbool (b : Bool)
  | pnum (n : NumLit)
  | pnan
  | pinf
  | pninf
  | pstr (s : Str)
  | ptup (l : List NumLit)
deriving DecidableEq, Repr

def renderNat (n : Nat) : Str := Nat.toDigits 10 n

def renderNum (n : NumLit) : Str :=
  (if n.neg then ['-'] else []) ++ renderNat n.ip ++
    (match n.fp with
     | none => []
     | some ds => '.' :: ds)

def renderTupInner : List NumLit → Str
  | [] => []
  | [n] => renderNum n
  | n :: rest => renderNum n ++ ',' :: ' ' :: renderTupInner rest

/-- Render a typed value back to its wire form (the value part of a
`name_value` token). -/
def renderVal : PVal → Str
  | .pbool true => "True".data
  | .pbool false => "False".data
  | .pnum n => renderNum n
  | .pnan => "nan".data
  | .pinf => "inf".data
  | .pninf => "-inf".data
  | .pstr s => s
  | .ptup l => '(' :: (renderTupInner l ++ [')'])

def digitsToNat (l : Str) : Nat := l.foldl (fun a c => a * 10 + (c.toNat - 48)) 0

/-- Split a string at its first dot, when there is one. -/
def splitDot : Str → Option (Str × Str)
  | [] => none
  | '.' :: r => some ([], r)
  | c :: r => (splitDot r).map (fun p => (c :: p.1, p.2))

/-- Parse a decimal numeral (optional sign, digits, optional dot and
fraction digits). -/
def parseNum (s : Str) : Option NumLit :=
  let signed : Bool × Str :=
    match s with
    | '-' :: r => (true, r)
    | _ => (false, s)
  match splitDot signed.2 with
  | none =>
    if !signed.2.isEmpty && signed.2.all Char.isDigit then
      some ⟨signed.1, digitsToNat signed.2, none⟩
    else none
  | some (i, f) =>
    if !i.isEmpty && !f.isEmpty && i.all Char.isDigit && f.all Char.isDigit then
      some ⟨signed.1, digitsToNat i, some f⟩
    else none

/-- Split on commas (every occurrence). -/
def splitComma : Str → List Str
  | [] => [[]]
  | ',' :: r => [] :: splitComma r
  | c :: r =>
    match splitComma r with
    | [] => [[c]]
    | f :: fs => (c :: f) :: fs

/-- Drop one leading space, when present. -/
def stripSp : Str → Str
  | ' ' :: r => r
  | s => s

def seqO : List (Option α) → Option (List α)
  | [] => some []
  | none :: _ => none
  | some a :: rest => (seqO rest).map (a :: ·)

/-- Parse a tuple literal `(n, n, ...)` of numerals. -/
def parseTup (s : Str) : Option (List NumLit) :=
  match s with
  | '(' :: rest =>
    if rest.getLast? = some ')' then
      seqO ((splitComma rest.dropLast).map (fun e => parseNum (stripSp e)))
    else none
  | _ => none

/-- Modelled from the spec: the value coercion of the Config String Codec
(`get_config_from_string` in `tsfresh/utilities/string_manipulation.py`,
not among the given sources).  A value token is coerced to a boolean, a
float special, a number, a tuple of numbers, and otherwise stays a
string. -/
def parseVal (s : Str) : PVal :=
  if s = "True".data then .pbool true
  else if s = "False".data then .pbool false
  else if s = "nan".data then .pnan
  else if s = "inf".data then .pinf
  else if s = "-inf".data then .pninf
  else
    match parseNum s with
    | some n => .pnum n
    | none =>
      match parseTup s with
      | some l => .ptup l
      | none => .pstr s

/-- Split a string at its last underscore (Python `s.rsplit("_", 1)`),
when it has one. -/
def rsplitU : Str → Option (Str × Str)
  | [] => none
  | c :: r =>
    match rsplitU r with
    | some (a, b) => some (c :: a, b)
    | none => if c = '_' then some ([], r) else none

/-- Modelled from the spec: decode one `name_value` parameter token into a
`(name, typed value)` pair.  A token without an underscore is outside the
wire format; it is mapped to a default pair (the real codec would fail on
it; no claim exercises this case). -/
def decodeToken (tok : Str) : Str × PVal :=
  match rsplitU tok with
  | some (n, v) => (n, parseVal v)
  | none => (tok, .pstr [])

/-- Encode one `(name, value)` parameter pair as a `name_value` token. -/
def encTok (p : Str × PVal) : Str := p.1 ++ '_' :: renderVal p.2

/-! ## Association lists: Python dicts in insertion order -/

/-- Dict lookup (`d[k]` / `k in d`). -/
def alookup (m : List (Str × α)) (k : Str) : Option α :=
  match m with
  | [] => none
  | (k', v) :: rest => if k' = k then some v else alookup rest k

/-- Dict assignment `d[k] = v`: replace in place when the key exists,
otherwise append. -/
def alistInsert (m : List (Str × α)) (k : Str) (v : α) : List (Str × α) :=
  match m with
  | [] => [(k, v)]
  | (k', v') :: rest =>
    if k' = k then (k, v) :: rest else (k', v') :: alistInsert rest k v

/-- Dict deletion `del d[k]` (on the no-duplicate-keys maps built here,
removing every matching key equals removing the key). -/
def eraseKey (m : List (Str × α)) (k : Str) : List (Str × α) :=
  match m with
  | [] => []
  | (k', v) :: rest => if k' = k then eraseKey rest k else (k', v) :: eraseKey rest k

/-! ## The data model of the settings module -/

/-- One parameter dictionary, e.g. `{"q": 0.1}`. -/
abbrev ParamDict := List (Str × PVal)

/-- A settings mapping: calculator name to `None` (parameterless) or a
list of parameter dictionaries. -/
abbrev FCMap := List (Str × Option (List ParamDict))

/-- The result of `from_columns`: kind to settings mapping. -/
abbrev KindMap := List (Str × FCMap)

/-- A Python object appearing in a column list: a string or (standing for
all non-string objects) an integer. -/
inductive PyObj where
  | pystr (s : Str)
  | pyint (n : Int)
deriving DecidableEq, Repr

/-- Python exceptions raised by the modelled code. -/
inductive PyErr where
  | typeError (msg : Str)
  | valueError (msg : Str)
  | attributeError (msg : Str)
deriving DecidableEq, Repr

/-- One attribute of the `feature_calculators` module, with the capability
metadata the settings module reads.  Modelled from the spec: the registry
itself (`feature_calculators.py`) is not among the given sources, so it is
kept abstract as a list of such records; `minimalFlag` stands for
`hasattr(f, "minimal") and getattr(f, "minimal")`, `hasHighCompCost` for
`hasattr(f, "high_comp_cost")`, `inputAttr` for `getattr(f, "input",
None)`, `indexTypeIsDT` for `getattr(f, "index_type", False) ==
pd.DatetimeIndex`. -/
structure FCAttr where
  name : Str
  isCallable : Bool
  hasFctype : Bool
  nargs : Nat
  minimalFlag : Bool
  hasHighCompCost : Bool
  inputAttr : Option Str
  indexTypeIsDT : Bool
deriving DecidableEq, Repr

/-- Python `hasattr(feature_calculators, s)`. -/
def hasattrB (reg : List FCAttr) (s : Str) : Bool :=
  reg.any (fun a => decide (a.name = s))

/-! ## `from_columns` -/

/-- Modelled from the spec: `get_config_from_string(parts)` receives the
full split field list, considers only the fields beyond kind and
calculator name, and decodes each `name_value` token into the parameter
dict (a falsy — here empty — dict when no parameter fields are
present). -/
def get_config_from_string (parts : List Str) : ParamDict :=
  (parts.drop 2).foldl
    (fun d tok => alistInsert d (decodeToken tok).1 (decodeToken tok).2) []

/-- The body of the `for col in columns` loop of `from_columns` for one
string column, acting on the accumulated `kind_to_fc_parameters`. -/
def processCol (reg : List FCAttr) (m : KindMap) (s : Str) : Except PyErr KindMap :=
  let parts := splitDunder s
  match parts with
  | [] => .error (.valueError s)
  | [_] =>
    .error (.valueError ("Splitting of columnname ".data ++ s ++
      " resulted in only one part.".data))
  | kind :: feature_name :: _ =>
    let m1 := if (alookup m kind).isSome then m else alistInsert m kind []
    if !hasattrB reg feature_name then
      .error (.valueError ("Unknown feature name ".data ++ feature_name))
    else
      let config := get_config_from_string parts
      let inner := (alookup m1 kind).getD []
      if !config.isEmpty then
        match alookup inner feature_name with
        | some (some l) =>
          .ok (alistInsert m1 kind (alistInsert inner feature_name (some (l ++ [config]))))
        | some none =>
          .error (.attributeError "NoneType has no attribute append".data)
        | none =>
          .ok (alistInsert m1 kind (alistInsert inner feature_name (some [config])))
      else
        .ok (alistInsert m1 kind (alistInsert inner feature_name none))

/-- The column loop of `from_columns`. -/
def fcGo (reg : List FCAttr) (ign : List PyObj) :
    List PyObj → KindMap → Except PyErr KindMap
  | [], m => .ok m
  | col :: rest, m =>
    if col ∈ ign then fcGo reg ign rest m
    else
      match col with
      | .pyint _ =>
        .error (.typeError "Column name should be a string or unicode".data)
      | .pystr s =>
        match processCol reg m s with
        | .ok m1 => fcGo reg ign rest m1
        | .error e => .error e

/-- The function `from_columns(columns, columns_to_ignore=None)` from
`tsfresh/feature_extraction/settings.py`. -/
def from_columns (reg : List FCAttr) (columns : List PyObj)
    (columns_to_ignore : Option (List PyObj)) : Except PyErr KindMap :=
  fcGo reg (columns_to_ignore.getD []) columns []

def isTypeErr : Except PyErr KindMap → Bool
  | .error (.typeError _) => true
  | _ => false

def isValueErr : Except PyErr KindMap → Bool
  | .error (.valueError _) => true
  | _ => false

/-! ## Synthesizing column names from a settings mapping

The naming convention `kind__calculator[__param_value ...]`, used by the
extraction run whose columns `from_columns` re-reads. -/

def colPlain (x c : Str) : Str := joinD [x, c]

def colParam (x c : Str) (d : ParamDict) : Str := joinD ([x, c] ++ d.map encTok)

/-- The column names one settings entry generates: one plain column for a
`None` configuration, one column per parameter dict otherwise. -/
def colsOfEntry (x c : Str) : Option (List ParamDict) → List PyObj
  | none => [.pystr (colPlain x c)]
  | some ds => ds.map (fun d => .pystr (colParam x c d))

/-- All column names a settings mapping generates for one kind, in entry
order. -/
def synth (x : Str) (S : FCMap) : List PyObj :=
  S.flatMap (fun e => colsOfEntry x e.1 e.2)

/-! ## Well-formedness of encodable settings

The wire format can only carry fields without `__` (and without a trailing
`_` before a separator), tokens its codec decodes back, non-empty
parameter dicts (an empty dict would render as a parameterless column) and
non-empty dict lists. -/

/-- A parameter pair whose token survives the wire format: the token is a
clean field and decodes back to the pair. -/
def wfTok (p : Str × PVal) : Bool :=
  cleanField (encTok p) && decide (decodeToken (encTok p) = p)

def wfDict (d : ParamDict) : Bool :=
  !d.isEmpty && decide (d.map Prod.fst).Nodup && d.all wfTok

def wfCfg : Option (List ParamDict) → Bool
  | none => true
  | some ds => !ds.isEmpty && ds.all wfDict

/-- An encodable settings mapping: non-empty, duplicate-free calculator
names that are clean fields and registry attributes, and encodable
configurations. -/
def wfSettings (reg : List FCAttr) (S : FCMap) : Bool :=
  !S.isEmpty && decide (S.map Prod.fst).Nodup &&
    S.all (fun e => cleanField e.1 && hasattrB reg e.1 && wfCfg e.2)

/-! ## The parameter-set builder

`ComprehensiveFCParameters.__init__` and the four filtering subclasses. -/

/-- Step 1 of `ComprehensiveFCParameters.__init__`: every module attribute
that is callable, has an `fctype` attribute and takes exactly one
positional argument enters with value `None`. -/
def step1 (reg : List FCAttr) : FCMap :=
  reg.foldl
    (fun m a =>
      if a.isCallable && a.hasFctype && a.nargs == 1 then
        alistInsert m a.name none
      else m)
    []

def pint (n : Nat) : PVal := .pnum ⟨false, n, none⟩

/-- An exact decimal `ip.d1 d2 ...` (the source's float literals are
modelled as exact decimals; no claim observes float rounding). -/
def pdec (ip : Nat) (ds : List Nat) : PVal :=
  .pnum ⟨false, ip, some (ds.map Nat.digitChar)⟩

/-- The value `r * 0.05` for `r < 20`, as the exact decimal with two fraction
digits. -/
def pcenti (n : Nat) : PVal :=
  .pnum ⟨false, n / 100, some [Nat.digitChar (n / 10 % 10), Nat.digitChar (n % 10)]⟩

def quantileQs : List PVal :=
  [pdec 0 [1], pdec 0 [2], pdec 0 [3], pdec 0 [4],
   pdec 0 [6], pdec 0 [7], pdec 0 [8], pdec 0 [9]]

def macqQl : List PVal := [pdec 0 [0], pdec 0 [2], pdec 0 [4], pdec 0 [6], pdec 0 [8]]

def macqQh : List PVal := [pdec 0 [2], pdec 0 [4], pdec 0 [6], pdec 0 [8], pdec 1 [0]]

def cwtWidths : PVal := .ptup [⟨false, 2, none⟩, ⟨false, 5, none⟩, ⟨false, 10, none⟩, ⟨false, 20, none⟩]

/-- The hand-authored overlay table of `ComprehensiveFCParameters.__init__`
(the dict literal passed to `name_to_param.update`), with only the entries
this fork leaves enabled. -/
def overlayTable : FCMap :=
  [("time_reversal_asymmetry_statistic".data,
    some ([1, 2, 3].map (fun lag => [("lag".data, pint lag)]))),
   ("symmetry_looking".data,
    some ((List.range 20).map (fun r => [("r".data, pcenti (r * 5))]))),
   ("large_standard_deviation".data,
    some ((List.range 10).map (fun r => [("r".data, pcenti (r * 5))]))),
   ("quantile".data,
    some (quantileQs.map (fun q => [("q".data, q)]))),
   ("autocorrelation".data,
    some ((List.range 10).map (fun lag => [("lag".data, pint lag)]))),
   ("number_cwt_peaks".data,
    some ([1, 5].map (fun n => [("n".data, pint n)]))),
   ("number_peaks".data,
    some ([1, 3, 5].map (fun n => [("n".data, pint n)]))),
   ("large_number_of_peaks".data,
    some ([1, 3, 5].map (fun n => [("n".data, pint n)]))),
   ("binned_entropy".data,
    some ([10].map (fun mb => [("max_bins".data, pint mb)]))),
   ("index_mass_quantile".data,
    some (quantileQs.map (fun q => [("q".data, q)]))),
   ("cwt_coefficients".data,
    some ((List.range 15).flatMap (fun coeff =>
      [2, 5, 10, 20].map (fun w =>
        [("widths".data, cwtWidths), ("coeff".data, pint coeff), ("w".data, pint w)])))),
   ("spkt_welch_density".data,
    some ([2, 5, 8].map (fun coeff => [("coeff".data, pint coeff)]))),
   ("ar_coefficient".data,
    some ((List.range 5).map (fun coeff =>
      [("coeff".data, pint coeff), ("k".data, pint 10)]))),
   ("mean_abs_change_quantiles".data,
    some (macqQl.flatMap (fun ql => macqQh.map (fun qh =>
      [("ql".data, ql), ("qh".data, qh)])))),
   ("fft_coefficient".data,
    some ((List.range 10).map (fun coeff => [("coeff".data, pint coeff)]))),
   ("value_count".data,
    some ([pint 0, pint 1, .pnan, .pinf, .pninf].map (fun v => [("value".data, v)]))),
   ("range_count".data,
    some [[("min".data, .pnum ⟨true, 1, none⟩), ("max".data, pint 1)]]),
   ("approximate_entropy".data,
    some ([pdec 0 [1], pdec 0 [3], pdec 0 [5], pdec 0 [7], pdec 0 [9]].map
      (fun r => [("m".data, pint 2), ("r".data, r)])))]

/-- Python `dict.update`: merge the second mapping into the first, later
entries replacing existing values in place and new keys appended. -/
def dictUpdate (m upd : FCMap) : FCMap :=
  upd.foldl (fun acc p => alistInsert acc p.1 p.2) m

/-- Python `ComprehensiveFCParameters()`: the introspected parameterless entries
updated with the hand-authored overlay table. -/
def comprehensive (reg : List FCAttr) : FCMap :=
  dictUpdate (step1 reg) overlayTable

/-- One step of the deletion loops of the four subclasses: for a module
attribute `a`, `if a.name in self and P a: del self[a.name]`. -/
def delStep (P : FCAttr → Bool) (m : FCMap) (a : FCAttr) : FCMap :=
  if (alookup m a.name).isSome && P a then eraseKey m a.name else m

/-- Python `MinimalFCParameters()`: delete every attribute's entry unless its
`minimal` flag is present and truthy. -/
def minimalFC (reg : List FCAttr) : FCMap :=
  reg.foldl (delStep (fun a => !a.minimalFlag)) (comprehensive reg)

/-- Python `EfficientFCParameters()`: delete every attribute's entry that has a
`high_comp_cost` attribute. -/
def efficientFC (reg : List FCAttr) : FCMap :=
  reg.foldl (delStep (fun a => a.hasHighCompCost)) (comprehensive reg)

/-- Python `IndexBasedFCParameters()`: delete every attribute's entry whose
`input` attribute is not `"pd.Series"`. -/
def indexBasedFC (reg : List FCAttr) : FCMap :=
  reg.foldl (delStep (fun a => !decide (a.inputAttr = some "pd.Series".data)))
    (comprehensive reg)

/-- Python `TimeBasedFCParameters()`: delete every attribute's entry whose
`index_type` attribute is not `pd.DatetimeIndex`. -/
def timeBasedFC (reg : List FCAttr) : FCMap :=
  reg.foldl (delStep (fun a => !a.indexTypeIsDT)) (comprehensive reg)

/-- The registry entry for a name, when the name is a module attribute. -/
def regFind (reg : List FCAttr) (k : Str) : Option FCAttr :=
  reg.find? (fun a => decide (a.name = k))

/-- Holds (`true`) when every key of a mapping is also a key of a second one. -/
def subKeys (m1 m2 : FCMap) : Bool :=
  (m1.map Prod.fst).all (fun k => (alookup m2 k).isSome)

/-! ## Concrete witness data

A small concrete registry shaped like the real `feature_calculators`
module: parameterless calculators (one positional argument), parameterized
calculators (two positional arguments, configured through the overlay
table), and non-calculator module attributes such as the imported `np`. -/

/-- A parameterless calculator attribute. -/
def mkCalc (s : String) (minimal hcc : Bool) : FCAttr :=
  ⟨s.data, true, true, 1, minimal, hcc, none, false⟩

/-- A parameterized calculator attribute (two positional arguments). -/
def mkParamCalc (s : String) (hcc : Bool) : FCAttr :=
  ⟨s.data, true, true, 2, false, hcc, none, false⟩

/-- A non-calculator module attribute (an imported module: not callable,
no `fctype`). -/
def npAttr : FCAttr := ⟨"np".data, false, false, 0, false, false, none, false⟩

def regW : List FCAttr :=
  [mkCalc "mean" true false,
   mkCalc "median" true false,
   mkCalc "length" true false,
   mkCalc "standard_deviation" true false,
   mkCalc "maximum" true false,
   mkCalc "minimum" true false,
   mkCalc "abs_energy" false false,
   mkCalc "kurtosis" false false,
   mkCalc "skewness" false false,
   mkCalc "sample_entropy" false true,
   mkParamCalc "time_reversal_asymmetry_statistic" false,
   mkParamCalc "symmetry_looking" false,
   mkParamCalc "large_standard_deviation" false,
   mkParamCalc "quantile" false,
   mkParamCalc "autocorrelation" false,
   mkParamCalc "number_cwt_peaks" true,
   mkParamCalc "number_peaks" false,
   mkParamCalc "large_number_of_peaks" false,
   mkParamCalc "binned_entropy" false,
   mkParamCalc "index_mass_quantile" false,
   mkParamCalc "cwt_coefficients" true,
   mkParamCalc "spkt_welch_density" false,
   mkParamCalc "ar_coefficient" false,
   mkParamCalc "mean_abs_change_quantiles" false,
   mkParamCalc "fft_coefficient" false,
   mkParamCalc "value_count" false,
   mkParamCalc "range_count" false,
   mkParamCalc "approximate_entropy" true,
   npAttr]

/-- A settings mapping for the round-trip witness: one parameterless
calculator and one with two accumulated parameter dicts. -/
def settingsW : FCMap :=
  [("mean".data, none),
   ("quantile".data,
    some [[("q".data, pdec 0 [1])], [("q".data, pdec 0 [2])]])]

/-- The two parameter dicts of the accumulation example
(`q` at `0.1` and at `0.2`). -/
def dsW : List ParamDict :=
  [[("q".data, pdec 0 [1])], [("q".data, pdec 0 [2])]]

/-! ## Lemmas: splitting the wire format -/

theorem splitDunder_ne_nil (s : Str) : splitDunder s ≠ [] := by
  induction s using splitDunder.induct with
  | case1 => simp [splitDunder]
  | case2 c => simp [splitDunder]
  | case3 c1 c2 rest h ih => simp [splitDunder, h]
  | case4 c1 c2 rest h hm ih => exact absurd hm ih
  | case5 c1 c2 rest h f fs hm ih => simp [splitDunder, h, hm]

theorem splitDunder_noDunder (s : Str) (hs : noDunder s = true) : splitDunder s = [s] := by
  induction s using splitDunder.induct with
  | case1 => rfl
  | case2 c => rfl
  | case3 c1 c2 rest h ih =>
    rw [noDunder] at hs
    simp [h] at hs
  | case4 c1 c2 rest h hm ih => exact absurd hm (splitDunder_ne_nil _)
  | case5 c1 c2 rest h f fs hm ih =>
    rw [noDunder] at hs
    simp only [Bool.and_eq_true, Bool.not_eq_true', decide_eq_false_iff_not] at hs
    rw [splitDunder, if_neg h, ih hs.2]

theorem noDunder_cons (c : Char) (s : Str) (h : noDunder (c :: s) = true) : noDunder s = true := by
  cases s with
  | nil => rfl
  | cons c2 rest =>
    rw [noDunder] at h
    simp only [Bool.and_eq_true] at h
    exact h.2

theorem splitDunder_clean_append (a : Str) (ha : cleanField a = true) (rest : Str) :
    splitDunder (a ++ '_' :: '_' :: rest) = a :: splitDunder rest := by
  induction a with
  | nil =>
    rw [List.nil_append, splitDunder, if_pos ⟨rfl, rfl⟩]
  | cons c tail ih =>
    rw [cleanField] at ha
    simp only [Bool.and_eq_true, Bool.not_eq_true'] at ha
    cases tail with
    | nil =>
      have hc : ¬(c = '_') := by
        intro h
        rw [endsU] at ha
        simp [h] at ha
      rw [List.cons_append, List.nil_append, splitDunder,
        if_neg (fun h => hc h.1), splitDunder, if_pos ⟨rfl, rfl⟩]
    | cons c2 a2 =>
      have hcl : cleanField (c2 :: a2) = true := by
        rw [cleanField]
        simp only [Bool.and_eq_true, Bool.not_eq_true']
        refine ⟨noDunder_cons c _ ha.1, ?_⟩
        rw [endsU] at ha
        exact ha.2
      have hne : ¬(c = '_' ∧ c2 = '_') := by
        intro h
        rw [noDunder] at ha
        simp [h.1, h.2] at ha
      rw [List.cons_append, List.cons_append, splitDunder, if_neg hne,
        ← List.cons_append, ih hcl]

theorem splitDunder_joinD (fs : List Str) (hne : fs ≠ [])
    (hcl : ∀ f ∈ fs, cleanField f = true) : splitDunder (joinD fs) = fs := by
  induction fs with
  | nil => exact absurd rfl hne
  | cons f fs2 ih =>
    cases fs2 with
    | nil =>
      rw [joinD]
      exact splitDunder_noDunder f
        (by
          have := hcl f (by simp)
          rw [cleanField] at this
          simp only [Bool.and_eq_true] at this
          exact this.1)
    | cons g fs3 =>
      rw [joinD, splitDunder_clean_append f (hcl f (by simp)) _,
        ih (fun h => List.noConfusion h) (fun x hx => hcl x (by simp [hx]))]
      exact fun h => List.noConfusion h

/-! ## Lemmas: association lists (dict semantics) -/

theorem alookup_insert (m : List (Str × α)) (k q : Str) (v : α) :
    alookup (alistInsert m k v) q = if k = q then some v else alookup m q := by
  induction m with
  | nil => rfl
  | cons p rest ih =>
    obtain ⟨a, b⟩ := p
    rw [alistInsert]
    by_cases hak : a = k
    · subst hak
      rw [if_pos rfl, alookup, alookup]
      by_cases haq : a = q <;> simp [haq]
    · rw [if_neg hak, alookup, alookup]
      by_cases haq : a = q
      · have : ¬(k = q) := fun h => hak (h ▸ haq)
        rw [if_pos haq, if_pos haq, if_neg this]
      · rw [if_neg haq, if_neg haq, ih]

theorem alistInsert_insert (m : List (Str × α)) (k : Str) (v v' : α) :
    alistInsert (alistInsert m k v) k v' = alistInsert m k v' := by
  induction m with
  | nil => simp [alistInsert]
  | cons p rest ih =>
    obtain ⟨a, b⟩ := p
    by_cases hak : a = k
    · subst hak
      simp [alistInsert]
    · simp [alistInsert, hak, ih]

theorem alistInsert_self (m : List (Str × α)) (k : Str) (v : α)
    (h : alookup m k = some v) : alistInsert m k v = m := by
  induction m with
  | nil => simp [alookup] at h
  | cons p rest ih =>
    obtain ⟨a, b⟩ := p
    rw [alookup] at h
    by_cases hak : a = k
    · rw [if_pos hak] at h
      injection h with h
      rw [alistInsert, if_pos hak, hak, h]
    · rw [if_neg hak] at h
      rw [alistInsert, if_neg hak, ih h]

theorem alistInsert_absent (m : List (Str × α)) (k : Str) (v : α)
    (h : alookup m k = none) : alistInsert m k v = m ++ [(k, v)] := by
  induction m with
  | nil => rfl
  | cons p rest ih =>
    obtain ⟨a, b⟩ := p
    rw [alookup] at h
    by_cases hak : a = k
    · rw [if_pos hak] at h
      exact absurd h (by simp)
    · rw [if_neg hak] at h
      rw [alistInsert, if_neg hak, ih h, List.cons_append]

theorem alookup_append (m1 m2 : List (Str × α)) (k : Str) :
    alookup (m1 ++ m2) k =
      match alookup m1 k with
      | some v => some v
      | none => alookup m2 k := by
  induction m1 with
  | nil => rfl
  | cons p rest ih =>
    obtain ⟨a, b⟩ := p
    rw [List.cons_append, alookup, alookup]
    by_cases hak : a = k
    · rw [if_pos hak, if_pos hak]
    · rw [if_neg hak, if_neg hak, ih]

theorem alistInsert_append_last (m : List (Str × α)) (k : Str) (v v' : α)
    (h : alookup m k = none) :
    alistInsert (m ++ [(k, v)]) k v' = m ++ [(k, v')] := by
  induction m with
  | nil => simp [alistInsert]
  | cons p rest ih =>
    obtain ⟨a, b⟩ := p
    rw [alookup] at h
    by_cases hak : a = k
    · rw [if_pos hak] at h
      exact absurd h (by simp)
    · rw [if_neg hak] at h
      rw [List.cons_append, alistInsert, if_neg hak, ih h, List.cons_append]

theorem alookup_not_mem_keys (m : List (Str × α)) (k : Str)
    (h : k ∉ m.map Prod.fst) : alookup m k = none := by
  induction m with
  | nil => rfl
  | cons p rest ih =>
    obtain ⟨a, b⟩ := p
    simp only [List.map_cons, List.mem_cons, not_or] at h
    rw [alookup, if_neg (fun hh => h.1 hh.symm)]
    exact ih h.2

theorem mem_keys_iff_isSome (m : List (Str × α)) (k : Str) :
    k ∈ m.map Prod.fst ↔ (alookup m k).isSome = true := by
  induction m with
  | nil => simp [alookup]
  | cons p rest ih =>
    obtain ⟨a, b⟩ := p
    rw [List.map_cons, List.mem_cons, alookup]
    by_cases hak : a = k
    · subst hak
      rw [if_pos rfl]
      exact ⟨fun _ => rfl, fun _ => Or.inl rfl⟩
    · rw [if_neg hak]
      simp only [ih]
      constructor
      · intro h
        cases h with
        | inl h => exact absurd h.symm hak
        | inr h => exact h
      · intro h
        exact Or.inr h

theorem alookup_eraseKey (m : List (Str × α)) (n k : Str) :
    alookup (eraseKey m n) k = if n = k then none else alookup m k := by
  induction m with
  | nil => simp [eraseKey, alookup]
  | cons p rest ih =>
    obtain ⟨a, b⟩ := p
    rw [eraseKey]
    by_cases han : a = n
    · rw [if_pos han, ih]
      by_cases hnk : n = k
      · rw [if_pos hnk, if_pos hnk]
      · rw [if_neg hnk, if_neg hnk, alookup,
          if_neg (fun h : a = k => hnk (by rw [← han]; exact h))]
    · rw [if_neg han, alookup, ih]
      by_cases hak : a = k
      · have hnk : ¬(n = k) := fun h => han (by rw [hak, ← h])
        rw [if_pos hak, if_neg hnk, alookup, if_pos hak]
      · rw [if_neg hak, alookup, if_neg hak]

/-! ## Lemmas: decoding a well-formed parameter dict -/

theorem decode_foldl (d : ParamDict) : ∀ acc : ParamDict,
    (∀ p ∈ d, wfTok p = true) → (d.map Prod.fst).Nodup →
    (∀ k ∈ d.map Prod.fst, alookup acc k = none) →
    (d.map encTok).foldl
      (fun m tok => alistInsert m (decodeToken tok).1 (decodeToken tok).2) acc =
      acc ++ d := by
  induction d with
  | nil => intro acc _ _ _; simp
  | cons p d2 ih =>
    obtain ⟨k0, v0⟩ := p
    intro acc hwf hnd hfresh
    rw [List.map_cons, List.foldl_cons]
    have hp : decodeToken (encTok (k0, v0)) = (k0, v0) := by
      have h := hwf (k0, v0) (List.mem_cons_self _ _)
      rw [wfTok] at h
      simp only [Bool.and_eq_true, decide_eq_true_eq] at h
      exact h.2
    rw [hp, alistInsert_absent acc k0 v0 (hfresh k0 (by rw [List.map_cons]; exact List.mem_cons_self _ _))]
    rw [List.map_cons] at hnd
    have hnd2 := List.nodup_cons.mp hnd
    rw [ih (acc ++ [(k0, v0)]) (fun q hq => hwf q (List.mem_cons_of_mem _ hq)) hnd2.2
      (fun k hk => by
        rw [alookup_append,
          hfresh k (by rw [List.map_cons]; exact List.mem_cons_of_mem _ hk),
          alookup, if_neg (fun h => hnd2.1 (by rw [h]; exact hk))]
        rfl)]
    rw [List.append_assoc]
    rfl

theorem get_config_wf (x c : Str) (d : ParamDict) (hd : wfDict d = true) :
    get_config_from_string ([x, c] ++ d.map encTok) = d := by
  rw [wfDict] at hd
  simp only [Bool.and_eq_true, Bool.not_eq_true', decide_eq_true_eq,
    List.all_eq_true] at hd
  rw [get_config_from_string]
  have hdrop : (([x, c] ++ d.map encTok).drop 2) = d.map encTok := rfl
  rw [hdrop, decode_foldl d [] hd.2 hd.1.2 (fun k _ => rfl), List.nil_append]

/-! ## Lemmas: one loop step of `from_columns` -/

theorem processCol_plain (reg : List FCAttr) (m : KindMap) (x c : Str)
    (hx : cleanField x = true) (hc : cleanField c = true)
    (hreg : hasattrB reg c = true) :
    processCol reg m (colPlain x c) =
      .ok (alistInsert m x (alistInsert ((alookup m x).getD []) c none)) := by
  have hsplit : splitDunder (colPlain x c) = [x, c] :=
    splitDunder_joinD [x, c] (fun h => List.noConfusion h)
      (fun f hf => by
        simp only [List.mem_cons, List.not_mem_nil, or_false] at hf
        rcases hf with rfl | rfl
        · exact hx
        · exact hc)
  have hc0 : get_config_from_string [x, c] = ([] : ParamDict) := rfl
  rw [processCol, hsplit]
  simp only [hreg, Bool.not_true, Bool.false_eq_true, if_false, hc0,
    List.isEmpty_nil]
  cases hmx : alookup m x with
  | none =>
    have hin : alookup (alistInsert m x []) x = some [] := by
      rw [alookup_insert, if_pos rfl]
    simp only [hmx, Option.isSome_none, Bool.false_eq_true, if_false, hin,
      Option.getD_some, Option.getD_none]
    rw [alistInsert_insert]
  | some i =>
    simp only [hmx, Option.isSome_some, if_true, Option.getD_some]

theorem processCol_param (reg : List FCAttr) (m : KindMap) (x c : Str) (d : ParamDict)
    (hx : cleanField x = true) (hc : cleanField c = true)
    (hreg : hasattrB reg c = true) (hd : wfDict d = true) :
    processCol reg m (colParam x c d) =
      match alookup ((alookup m x).getD []) c with
      | some (some l) =>
        .ok (alistInsert m x
          (alistInsert ((alookup m x).getD []) c (some (l ++ [d]))))
      | some none => .error (.attributeError "NoneType has no attribute append".data)
      | none =>
        .ok (alistInsert m x
          (alistInsert ((alookup m x).getD []) c (some [d]))) := by
  have htoks : ∀ f ∈ d.map encTok, cleanField f = true := by
    intro f hf
    rw [List.mem_map] at hf
    obtain ⟨p, hp, hpe⟩ := hf
    rw [wfDict] at hd
    simp only [Bool.and_eq_true, List.all_eq_true] at hd
    have := hd.2 p hp
    rw [wfTok] at this
    simp only [Bool.and_eq_true] at this
    exact hpe ▸ this.1
  have hsplit : splitDunder (colParam x c d) = x :: c :: d.map encTok :=
    splitDunder_joinD ([x, c] ++ d.map encTok)
      (fun h => List.noConfusion h)
      (fun f hf => by
        rcases List.mem_append.mp hf with hf2 | hf2
        · simp only [List.mem_cons, List.not_mem_nil, or_false] at hf2
          rcases hf2 with rfl | rfl
          · exact hx
          · exact hc
        · exact htoks f hf2)
  have hne : d.isEmpty = false := by
    rw [wfDict] at hd
    simp only [Bool.and_eq_true, Bool.not_eq_true'] at hd
    exact hd.1.1
  have hcfg : get_config_from_string (x :: c :: d.map encTok) = d :=
    get_config_wf x c d hd
  rw [processCol, hsplit]
  simp only [hreg, Bool.not_true, Bool.false_eq_true, if_false, hcfg, hne,
    Bool.not_false, if_true]
  cases hmx : alookup m x with
  | none =>
    have hin : alookup (alistInsert m x []) x = some [] := by
      rw [alookup_insert, if_pos rfl]
    have h0 : alookup ([] : FCMap) c = none := rfl
    simp only [hmx, Option.isSome_none, Bool.false_eq_true, if_false, hin,
      Option.getD_some, Option.getD_none, h0]
    rw [alistInsert_insert]
  | some i =>
    simp only [hmx, Option.isSome_some, if_true, Option.getD_some]

/-! ## Lemmas: the column loop -/

theorem fcGo_append (reg : List FCAttr) (ign : List PyObj) (l1 l2 : List PyObj) :
    ∀ m, fcGo reg ign (l1 ++ l2) m =
      match fcGo reg ign l1 m with
      | .ok m1 => fcGo reg ign l2 m1
      | .error e => .error e := by
  induction l1 with
  | nil => intro m; rfl
  | cons col l1x ih =>
    intro m
    rw [List.cons_append]
    cases col with
    | pyint n =>
      rw [fcGo, fcGo]
      by_cases hig : PyObj.pyint n ∈ ign
      · rw [if_pos hig, if_pos hig, ih]
      · rw [if_neg hig, if_neg hig]
    | pystr s =>
      rw [fcGo, fcGo]
      by_cases hig : PyObj.pystr s ∈ ign
      · rw [if_pos hig, if_pos hig, ih]
      · rw [if_neg hig, if_neg hig]
        cases processCol reg m s with
        | ok m1 => exact ih m1
        | error e => rfl

theorem alookup_single (x : Str) (v : α) : alookup [(x, v)] x = some v := by
  rw [alookup, if_pos rfl]

theorem alistInsert_single (x : Str) (v v' : α) :
    alistInsert [(x, v)] x v' = [(x, v')] := by
  rw [alistInsert, if_pos rfl]

theorem fcGo_ok_step (reg : List FCAttr) (ign rest : List PyObj) (s : Str)
    (m m1 : KindMap) (hig : PyObj.pystr s ∉ ign)
    (h : processCol reg m s = .ok m1) :
    fcGo reg ign (.pystr s :: rest) m = fcGo reg ign rest m1 := by
  rw [fcGo, if_neg hig, h]

theorem fcGo_paramRun (reg : List FCAttr) (x c : Str)
    (hx : cleanField x = true) (hc : cleanField c = true)
    (hreg : hasattrB reg c = true) :
    ∀ (ds : List ParamDict) (acc : FCMap) (l : List ParamDict),
    (∀ d ∈ ds, wfDict d = true) → alookup acc c = some (some l) →
    fcGo reg [] (ds.map (fun d => .pystr (colParam x c d))) [(x, acc)] =
      .ok [(x, alistInsert acc c (some (l ++ ds)))] := by
  intro ds
  induction ds with
  | nil =>
    intro acc l _ hacc
    rw [List.map_nil, fcGo, List.append_nil, alistInsert_self acc c (some l) hacc]
  | cons d ds2 ih =>
    intro acc l hwf hacc
    have hstep : processCol reg [(x, acc)] (colParam x c d) =
        .ok [(x, alistInsert acc c (some (l ++ [d])))] := by
      rw [processCol_param reg [(x, acc)] x c d hx hc hreg
        (hwf d (List.mem_cons_self _ _)), alookup_single, Option.getD_some, hacc]
      dsimp only
      rw [alistInsert_single]
    rw [List.map_cons,
      fcGo_ok_step reg [] _ _ _ _ (List.not_mem_nil _) hstep,
      ih (alistInsert acc c (some (l ++ [d]))) (l ++ [d])
        (fun q hq => hwf q (List.mem_cons_of_mem _ hq))
        (by rw [alookup_insert, if_pos rfl]),
      alistInsert_insert, List.append_assoc, List.singleton_append]

theorem fcGo_entry (reg : List FCAttr) (x c : Str) (cfg : Option (List ParamDict))
    (hx : cleanField x = true) (hc : cleanField c = true)
    (hreg : hasattrB reg c = true) (hcfg : wfCfg cfg = true)
    (acc : FCMap) (hacc : alookup acc c = none) :
    fcGo reg [] (colsOfEntry x c cfg) [(x, acc)] =
      .ok [(x, acc ++ [(c, cfg)])] := by
  cases cfg with
  | none =>
    have hstep : processCol reg [(x, acc)] (colPlain x c) =
        .ok [(x, acc ++ [(c, none)])] := by
      rw [processCol_plain reg [(x, acc)] x c hx hc hreg,
        alookup_single, Option.getD_some, alistInsert_single,
        alistInsert_absent acc c none hacc]
    rw [colsOfEntry, fcGo_ok_step reg [] _ _ _ _ (List.not_mem_nil _) hstep, fcGo]
  | some ds =>
    rw [wfCfg] at hcfg
    simp only [Bool.and_eq_true, Bool.not_eq_true', List.all_eq_true] at hcfg
    cases ds with
    | nil => exact absurd hcfg.1 (by simp)
    | cons d ds2 =>
      have hstep : processCol reg [(x, acc)] (colParam x c d) =
          .ok [(x, acc ++ [(c, some [d])])] := by
        rw [processCol_param reg [(x, acc)] x c d hx hc hreg
          (hcfg.2 d (List.mem_cons_self _ _)), alookup_single, Option.getD_some, hacc]
        dsimp only
        rw [alistInsert_single, alistInsert_absent acc c (some [d]) hacc]
      rw [colsOfEntry, List.map_cons,
        fcGo_ok_step reg [] _ _ _ _ (List.not_mem_nil _) hstep,
        fcGo_paramRun reg x c hx hc hreg ds2 (acc ++ [(c, some [d])]) [d]
          (fun q hq => hcfg.2 q (List.mem_cons_of_mem _ hq))
          (by rw [alookup_append, hacc, alookup_single]),
        alistInsert_append_last acc c (some [d]) _ hacc,
        List.singleton_append]

theorem fcGo_entry_start (reg : List FCAttr) (x c : Str) (cfg : Option (List ParamDict))
    (hx : cleanField x = true) (hc : cleanField c = true)
    (hreg : hasattrB reg c = true) (hcfg : wfCfg cfg = true) :
    fcGo reg [] (colsOfEntry x c cfg) [] = .ok [(x, [(c, cfg)])] := by
  cases cfg with
  | none =>
    have hstep : processCol reg [] (colPlain x c) = .ok [(x, [(c, none)])] := by
      rw [processCol_plain reg [] x c hx hc hreg]
      rfl
    rw [colsOfEntry, fcGo_ok_step reg [] _ _ _ _ (List.not_mem_nil _) hstep, fcGo]
  | some ds =>
    rw [wfCfg] at hcfg
    simp only [Bool.and_eq_true, Bool.not_eq_true', List.all_eq_true] at hcfg
    cases ds with
    | nil => exact absurd hcfg.1 (by simp)
    | cons d ds2 =>
      have hstep : processCol reg [] (colParam x c d) =
          .ok [(x, [(c, some [d])])] := by
        rw [processCol_param reg [] x c d hx hc hreg
          (hcfg.2 d (List.mem_cons_self _ _))]
        rfl
      rw [colsOfEntry, List.map_cons,
        fcGo_ok_step reg [] _ _ _ _ (List.not_mem_nil _) hstep,
        fcGo_paramRun reg x c hx hc hreg ds2 [(c, some [d])] [d]
          (fun q hq => hcfg.2 q (List.mem_cons_of_mem _ hq))
          (alookup_single c (some [d])),
        alistInsert_single, List.singleton_append]

theorem fcGo_entries (reg : List FCAttr) (x : Str) (hx : cleanField x = true) :
    ∀ (S2 : FCMap) (acc : FCMap),
    (S2.map Prod.fst).Nodup →
    (∀ e ∈ S2, (cleanField e.1 && hasattrB reg e.1 && wfCfg e.2) = true) →
    (∀ k ∈ S2.map Prod.fst, alookup acc k = none) →
    fcGo reg [] (synth x S2) [(x, acc)] = .ok [(x, acc ++ S2)] := by
  intro S2
  induction S2 with
  | nil => intro acc _ _ _; rw [synth, List.flatMap_nil, fcGo, List.append_nil]
  | cons e S2x ih =>
    obtain ⟨c, cfg⟩ := e
    intro acc hnd hwf hfresh
    have he := hwf (c, cfg) (List.mem_cons_self _ _)
    simp only [Bool.and_eq_true] at he
    rw [synth, List.flatMap_cons, fcGo_append]
    rw [fcGo_entry reg x c cfg hx he.1.1 he.1.2 he.2 acc
      (hfresh c (by rw [List.map_cons]; exact List.mem_cons_self _ _))]
    dsimp only
    rw [List.map_cons] at hnd
    have hnd2 := List.nodup_cons.mp hnd
    have hsyn : S2x.flatMap (fun e => colsOfEntry x e.1 e.2) = synth x S2x := rfl
    rw [hsyn, ih (acc ++ [(c, cfg)]) hnd2.2
      (fun q hq => hwf q (List.mem_cons_of_mem _ hq))
      (fun k hk => by
        rw [alookup_append,
          hfresh k (by rw [List.map_cons]; exact List.mem_cons_of_mem _ hk),
          alookup, if_neg (fun h => hnd2.1 (by rw [h]; exact hk))]
        rfl),
      List.append_assoc, List.singleton_append]

/-! ## The claims about `from_columns` -/

/-- C1.  Round-trip: for a well-formed settings object `S` and a kind `x`,
synthesizing column names per the naming convention
`kind__calculator[__param_value ...]` from `S` and passing them to
`from_columns` with no ignore-set returns exactly the mapping `{x: S}`:
calculators with non-empty parameter lists are reproduced with the same
parameter dicts in the same order, and calculators with `None`
configuration map back to `None`. -/
theorem from_columns_roundtrip (reg : List FCAttr) (x : Str) (S : FCMap)
    (hx : cleanField x = true) (hS : wfSettings reg S = true) :
    from_columns reg (synth x S) none = .ok [(x, S)] := by
  rw [wfSettings] at hS
  simp only [Bool.and_eq_true, Bool.not_eq_true', decide_eq_true_eq] at hS
  obtain ⟨⟨hne, hnd⟩, hallB⟩ := hS
  have hall := List.all_eq_true.mp hallB
  cases S with
  | nil => exact absurd hne (by simp)
  | cons e S2 =>
    obtain ⟨c, cfg⟩ := e
    have he := hall (c, cfg) (List.mem_cons_self _ _)
    simp only [Bool.and_eq_true] at he
    rw [from_columns, Option.getD_none, synth, List.flatMap_cons, fcGo_append,
      fcGo_entry_start reg x c cfg hx he.1.1 he.1.2 he.2]
    dsimp only
    rw [List.map_cons] at hnd
    have hnd2 := List.nodup_cons.mp hnd
    have hsyn : S2.flatMap (fun e => colsOfEntry x e.1 e.2) = synth x S2 := rfl
    rw [hsyn, fcGo_entries reg x hx S2 [(c, cfg)] hnd2.2
      (fun q hq => hall q (List.mem_cons_of_mem _ hq))
      (fun k hk => by
        rw [alookup, if_neg (fun h => hnd2.1 (by rw [h]; exact hk))]
        rfl),
      List.singleton_append]

/-- C1 witness: the round trip at a concrete registry and settings object
(a parameterless `mean` and a `quantile` with two parameter dicts). -/
theorem from_columns_roundtrip_witness :
    (cleanField "x".data = true) ∧ (wfSettings regW settingsW = true) ∧
    from_columns regW (synth "x".data settingsW) none =
      .ok [("x".data, settingsW)] :=
  ⟨by decide, by decide,
    from_columns_roundtrip regW "x".data settingsW (by decide) (by decide)⟩

/-- C2.  Accumulation: parameterized columns for the same (kind,
calculator) pair append their decoded parameter dicts into one list in
input-column order, with no sorting and no deduplication: the whole input
`ds` comes back as one list in the same order (including duplicates, since
`ds` is arbitrary). -/
theorem from_columns_accumulate (reg : List FCAttr) (k c : Str)
    (ds : List ParamDict) (hk : cleanField k = true) (hc : cleanField c = true)
    (hreg : hasattrB reg c = true) (hcfg : wfCfg (some ds) = true) :
    from_columns reg (ds.map (fun d => .pystr (colParam k c d))) none =
      .ok [(k, [(c, some ds)])] := by
  have h := fcGo_entry_start reg k c (some ds) hk hc hreg hcfg
  rw [colsOfEntry] at h
  rw [from_columns, Option.getD_none]
  exact h

/-- C2 witness: `from_columns(["k__quantile__q_0.1", "k__quantile__q_0.2"])`
returns `{"k": {"quantile": [{"q": 0.1}, {"q": 0.2}]}}` in input order. -/
theorem from_columns_accumulate_witness :
    (wfCfg (some dsW) = true) ∧
    (dsW.map (fun d => PyObj.pystr (colParam "k".data "quantile".data d)) =
      [.pystr "k__quantile__q_0.1".data, .pystr "k__quantile__q_0.2".data]) ∧
    from_columns regW
      [.pystr "k__quantile__q_0.1".data, .pystr "k__quantile__q_0.2".data] none =
      .ok [("k".data, [("quantile".data, some dsW)])] := by
  refine ⟨by decide, by decide, ?_⟩
  have h := from_columns_accumulate regW "k".data "quantile".data dsW
    (by decide) (by decide) (by decide) (by decide)
  rw [(by decide : dsW.map (fun d => PyObj.pystr (colParam "k".data "quantile".data d)) =
    [.pystr "k__quantile__q_0.1".data, .pystr "k__quantile__q_0.2".data])] at h
  exact h

/-- C3.  Replace-on-None asymmetry: a later parameterless column for the
same (kind, calculator) pair overwrites the whole accumulated parameter
list with `None`, silently discarding the earlier configurations. -/
theorem from_columns_replace_on_none (reg : List FCAttr) (k c : Str)
    (ds : List ParamDict) (hk : cleanField k = true) (hc : cleanField c = true)
    (hreg : hasattrB reg c = true) (hcfg : wfCfg (some ds) = true) :
    from_columns reg
      (ds.map (fun d => .pystr (colParam k c d)) ++ [.pystr (colPlain k c)]) none =
      .ok [(k, [(c, none)])] := by
  rw [from_columns, Option.getD_none, fcGo_append]
  have h := fcGo_entry_start reg k c (some ds) hk hc hreg hcfg
  rw [colsOfEntry] at h
  rw [h]
  dsimp only
  have hstep : processCol reg [(k, [(c, some ds)])] (colPlain k c) =
      .ok [(k, [(c, none)])] := by
    rw [processCol_plain reg _ k c hk hc hreg, alookup_single, Option.getD_some,
      alistInsert_single, alistInsert_single]
  rw [fcGo_ok_step reg [] [] _ _ _ (List.not_mem_nil _) hstep, fcGo]

/-- C3 witness: after `"k__quantile__q_0.1"` and `"k__quantile__q_0.2"`, the
parameterless `"k__quantile"` leaves `{"k": {"quantile": None}}`. -/
theorem from_columns_replace_on_none_witness :
    (wfCfg (some dsW) = true) ∧
    (dsW.map (fun d => PyObj.pystr (colParam "k".data "quantile".data d)) ++
      [PyObj.pystr (colPlain "k".data "quantile".data)] =
      [.pystr "k__quantile__q_0.1".data, .pystr "k__quantile__q_0.2".data,
       .pystr "k__quantile".data]) ∧
    from_columns regW
      [.pystr "k__quantile__q_0.1".data, .pystr "k__quantile__q_0.2".data,
       .pystr "k__quantile".data] none =
      .ok [("k".data, [("quantile".data, none)])] := by
  refine ⟨by decide, by decide, ?_⟩
  have h := from_columns_replace_on_none regW "k".data "quantile".data dsW
    (by decide) (by decide) (by decide) (by decide)
  rw [(by decide : dsW.map (fun d => PyObj.pystr (colParam "k".data "quantile".data d)) ++
    [PyObj.pystr (colPlain "k".data "quantile".data)] =
    [.pystr "k__quantile__q_0.1".data, .pystr "k__quantile__q_0.2".data,
     .pystr "k__quantile".data])] at h
  exact h

theorem processCol_single (reg : List FCAttr) (m : KindMap) (s : Str) (p : Str)
    (hsp : splitDunder s = [p]) :
    processCol reg m s = .error (.valueError ("Splitting of columnname ".data ++
      s ++ " resulted in only one part.".data)) := by
  rw [processCol, hsp]

theorem processCol_unknown (reg : List FCAttr) (m : KindMap) (s : Str)
    (k f : Str) (ps : List Str) (hsp : splitDunder s = k :: f :: ps)
    (hr : hasattrB reg f = false) :
    processCol reg m s = .error (.valueError ("Unknown feature name ".data ++ f)) := by
  rw [processCol, hsp]
  dsimp only
  rw [if_pos (show (!hasattrB reg f) = true by rw [hr]; rfl)]

/-- C4.  Error taxonomy and atomicity: after any prefix that processes
cleanly, a non-string column (not in the ignore-set) raises a type error, a
column splitting into a single field raises a value error, and a column
whose calculator name is not a module attribute raises a value error — in
each case whatever columns follow, the whole call returns that error and no
mapping. -/
theorem from_columns_errors (reg : List FCAttr) (ign : Option (List PyObj))
    (pre rest : List PyObj) (m : KindMap)
    (h : from_columns reg pre ign = .ok m) :
    (∀ n : Int, PyObj.pyint n ∉ ign.getD [] →
      isTypeErr (from_columns reg (pre ++ .pyint n :: rest) ign) = true) ∧
    (∀ s : Str, PyObj.pystr s ∉ ign.getD [] → (splitDunder s).length = 1 →
      isValueErr (from_columns reg (pre ++ .pystr s :: rest) ign) = true) ∧
    (∀ s k f : Str, ∀ ps : List Str, PyObj.pystr s ∉ ign.getD [] →
      splitDunder s = k :: f :: ps → hasattrB reg f = false →
      isValueErr (from_columns reg (pre ++ .pystr s :: rest) ign) = true) := by
  rw [from_columns] at h
  refine ⟨?_, ?_, ?_⟩
  · intro n hig
    rw [from_columns, fcGo_append, h]
    dsimp only
    rw [fcGo, if_neg hig]
    rfl
  · intro s hig hlen
    have hp : ∃ p, splitDunder s = [p] := by
      cases hsp : splitDunder s with
      | nil => exact absurd hsp (splitDunder_ne_nil s)
      | cons p ps =>
        cases ps with
        | nil => exact ⟨p, rfl⟩
        | cons q qs => rw [hsp] at hlen; simp at hlen
    obtain ⟨p, hp⟩ := hp
    rw [from_columns, fcGo_append, h]
    dsimp only
    rw [fcGo, if_neg hig, processCol_single reg m s p hp]
    rfl
  · intro s k f ps hig hsp hr
    rw [from_columns, fcGo_append, h]
    dsimp only
    rw [fcGo, if_neg hig, processCol_unknown reg m s k f ps hsp hr]
    rfl

/-- C4 witness: the three error classes at concrete inputs, after the empty
(cleanly processed) prefix. -/
theorem from_columns_errors_witness :
    (from_columns regW [] none = .ok []) ∧
    isTypeErr (from_columns regW [.pyint 42] none) = true ∧
    isValueErr (from_columns regW [.pystr "a".data] none) = true ∧
    isValueErr (from_columns regW
      [.pystr "kind__nonexistent_calculator".data] none) = true := by
  have h := from_columns_errors regW none [] [] [] rfl
  refine ⟨rfl, ?_, ?_, ?_⟩
  · exact h.1 42 (by decide)
  · exact h.2.1 "a".data (by decide) (by decide)
  · exact h.2.2 "kind__nonexistent_calculator".data "kind".data
      "nonexistent_calculator".data [] (by decide) (by decide) (by decide)

/-- C9.  Implicit: the calculator-name validation of `from_columns` accepts
any name that is a module attribute of `feature_calculators`, whatever its
metadata — the attribute need not be callable, carry `fctype`, or be a
feature calculator at all — and the entry is included in the output. -/
theorem from_columns_any_attr (reg : List FCAttr) (a : FCAttr) (ha : a ∈ reg)
    (k : Str) (hk : cleanField k = true) (hc : cleanField a.name = true) :
    from_columns reg [.pystr (colPlain k a.name)] none =
      .ok [(k, [(a.name, none)])] := by
  have hreg : hasattrB reg a.name = true := by
    rw [hasattrB, List.any_eq_true]
    exact ⟨a, ha, by simp⟩
  have hstep : processCol reg [] (colPlain k a.name) = .ok [(k, [(a.name, none)])] := by
    rw [processCol_plain reg [] k a.name hk hc hreg]
    rfl
  rw [from_columns, Option.getD_none,
    fcGo_ok_step reg [] [] _ _ _ (List.not_mem_nil _) hstep, fcGo]

/-- C9 witness: `"k__np"` is accepted because `np` (an imported module:
not callable, no `fctype`) is an attribute of the registry module. -/
theorem from_columns_any_attr_witness :
    (npAttr ∈ regW) ∧ npAttr.isCallable = false ∧ npAttr.hasFctype = false ∧
    from_columns regW [.pystr "k__np".data] none =
      .ok [("k".data, [("np".data, none)])] := by
  refine ⟨by decide, rfl, rfl, ?_⟩
  have h := from_columns_any_attr regW npAttr (by decide) "k".data
    (by decide) (by decide)
  rw [(by decide : colPlain "k".data npAttr.name = "k__np".data)] at h
  exact h

/-- C10.  Implicit: the ignore-set membership test precedes the string
type-check, so any entry of `columns_to_ignore` — including a non-string —
is silently skipped with no type error. -/
theorem from_columns_ignore_first (reg : List FCAttr) (l : List PyObj)
    (col : PyObj) (cols : List PyObj) (h : col ∈ l) :
    from_columns reg (col :: cols) (some l) = from_columns reg cols (some l) := by
  rw [from_columns, from_columns]
  simp only [Option.getD_some]
  cases col with
  | pyint n => rw [fcGo, if_pos h]
  | pystr s => rw [fcGo, if_pos h]

/-- C10 witness: `from_columns([42], columns_to_ignore=[42])` returns `{}`
rather than raising. -/
theorem from_columns_ignore_first_witness :
    (PyObj.pyint 42 ∈ [PyObj.pyint 42]) ∧
    from_columns regW [.pyint 42] (some [.pyint 42]) = .ok [] := by
  refine ⟨by decide, ?_⟩
  rw [from_columns_ignore_first regW [.pyint 42] (.pyint 42) [] (by decide)]
  rfl

/-! ## Lemmas: the variant deletion loops -/

theorem alookup_foldl_delStep (P : FCAttr → Bool) :
    ∀ (reg : List FCAttr) (m : FCMap) (k : Str),
    alookup (reg.foldl (delStep P) m) k =
      if reg.any (fun a => decide (a.name = k) && P a) then none
      else alookup m k := by
  intro reg
  induction reg with
  | nil => intro m k; rw [List.foldl_nil, List.any_nil, if_neg (by simp)]
  | cons a rest ih =>
    intro m k
    rw [List.foldl_cons, ih, List.any_cons]
    by_cases hhead : (decide (a.name = k) && P a) = true
    · simp only [hhead, Bool.true_or, if_true]
      simp only [Bool.and_eq_true, decide_eq_true_eq] at hhead
      have hdel : alookup (delStep P m a) k = none := by
        rw [delStep]
        by_cases hmem : ((alookup m a.name).isSome && P a) = true
        · rw [if_pos hmem, alookup_eraseKey, if_pos hhead.1]
        · rw [if_neg hmem]
          rw [← hhead.1]
          cases halo : alookup m a.name with
          | none => rfl
          | some v =>
            exact absurd (by rw [halo, hhead.2]; rfl) hmem
      rw [hdel]
      split <;> rfl
    · rw [Bool.not_eq_true] at hhead
      simp only [hhead, Bool.false_or]
      have hkeep : alookup (delStep P m a) k = alookup m k := by
        rw [delStep]
        by_cases hmem : ((alookup m a.name).isSome && P a) = true
        · rw [if_pos hmem, alookup_eraseKey]
          have hank : ¬(a.name = k) := by
            intro hank
            simp only [Bool.and_eq_true, decide_eq_true_eq] at hmem hhead
            rw [Bool.and_eq_false_iff] at hhead
            cases hhead with
            | inl hh => rw [decide_eq_false_iff_not] at hh; exact hh hank
            | inr hh => rw [hmem.2] at hh; exact Bool.noConfusion hh
          rw [if_neg hank]
        · rw [if_neg hmem]
      rw [hkeep]

theorem any_name_not_mem (reg : List FCAttr) (k : Str) (P : FCAttr → Bool)
    (h : k ∉ reg.map FCAttr.name) :
    reg.any (fun a => decide (a.name = k) && P a) = false := by
  induction reg with
  | nil => rfl
  | cons a rest ih =>
    simp only [List.map_cons, List.mem_cons, not_or] at h
    rw [List.any_cons, ih h.2, Bool.or_false,
      decide_eq_false (fun hh => h.1 hh.symm), Bool.false_and]

theorem any_name_nodup (reg : List FCAttr) (k : Str) (P : FCAttr → Bool)
    (hn : (reg.map FCAttr.name).Nodup) :
    reg.any (fun a => decide (a.name = k) && P a) =
      match regFind reg k with
      | some a => P a
      | none => false := by
  induction reg with
  | nil => rfl
  | cons a rest ih =>
    rw [List.map_cons] at hn
    have hn2 := List.nodup_cons.mp hn
    rw [List.any_cons, regFind, List.find?_cons]
    by_cases hak : a.name = k
    · have hrest : rest.any (fun a => decide (a.name = k) && P a) = false :=
        any_name_not_mem rest k P (hak ▸ hn2.1)
      rw [decide_eq_true hak, Bool.true_and, hrest, Bool.or_false]
    · rw [decide_eq_false hak, Bool.false_and, Bool.false_or, ih hn2.2, regFind]

theorem hasattrB_regFind (reg : List FCAttr) (k : Str)
    (h : hasattrB reg k = true) : ∃ a, regFind reg k = some a := by
  rw [hasattrB, List.any_eq_true] at h
  rw [regFind, ← Option.isSome_iff_exists, List.find?_isSome]
  obtain ⟨a, ha, hak⟩ := h
  exact ⟨a, ha, hak⟩

theorem alookup_step1_go (reg : List FCAttr) : ∀ (m : FCMap) (k : Str),
    alookup (reg.foldl
      (fun m a =>
        if a.isCallable && a.hasFctype && a.nargs == 1 then
          alistInsert m a.name none
        else m) m) k =
      if reg.any (fun a => decide (a.name = k) &&
          (a.isCallable && a.hasFctype && a.nargs == 1)) then some none
      else alookup m k := by
  induction reg with
  | nil => intro m k; rw [List.foldl_nil, List.any_nil, if_neg (by simp)]
  | cons a rest ih =>
    intro m k
    rw [List.foldl_cons, ih, List.any_cons]
    by_cases hhead : (decide (a.name = k) &&
        (a.isCallable && a.hasFctype && a.nargs == 1)) = true
    · simp only [hhead, Bool.true_or, if_true]
      simp only [Bool.and_eq_true, decide_eq_true_eq] at hhead
      have hstep : alookup (if a.isCallable && a.hasFctype && a.nargs == 1 then
          alistInsert m a.name none else m) k = some none := by
        rw [if_pos (by
            simp only [Bool.and_eq_true]
            exact hhead.2),
          alookup_insert, if_pos hhead.1]
      rw [hstep]
      split <;> rfl
    · rw [Bool.not_eq_true] at hhead
      simp only [hhead, Bool.false_or]
      have hstep : alookup (if a.isCallable && a.hasFctype && a.nargs == 1 then
          alistInsert m a.name none else m) k = alookup m k := by
        by_cases helig : (a.isCallable && a.hasFctype && a.nargs == 1) = true
        · rw [helig, Bool.and_true] at hhead
          rw [decide_eq_false_iff_not] at hhead
          rw [if_pos helig, alookup_insert, if_neg hhead]
        · rw [if_neg helig]
      rw [hstep]

theorem alookup_step1 (reg : List FCAttr) (k : Str) :
    alookup (step1 reg) k =
      if reg.any (fun a => decide (a.name = k) &&
          (a.isCallable && a.hasFctype && a.nargs == 1)) then some none
      else none := by
  rw [step1, alookup_step1_go]
  rfl

theorem alookup_dictUpdate (upd : FCMap) : ∀ (m : FCMap) (k : Str),
    (upd.map Prod.fst).Nodup →
    alookup (dictUpdate m upd) k =
      match alookup upd k with
      | some v => some v
      | none => alookup m k := by
  induction upd with
  | nil => intro m k _; rfl
  | cons p rest ih =>
    obtain ⟨a, b⟩ := p
    intro m k hnd
    rw [List.map_cons] at hnd
    have hnd2 := List.nodup_cons.mp hnd
    rw [dictUpdate, List.foldl_cons]
    have hfold : rest.foldl (fun acc p => alistInsert acc p.1 p.2)
        (alistInsert m a b) = dictUpdate (alistInsert m a b) rest := rfl
    rw [hfold, ih (alistInsert m a b) k hnd2.2]
    by_cases hak : a = k
    · have hr : alookup rest k = none := alookup_not_mem_keys rest k (hak ▸ hnd2.1)
      rw [hr, alookup_insert, if_pos hak, alookup, if_pos hak]
    · rw [alookup, if_neg hak]
      cases alookup rest k with
      | some v => rfl
      | none => rw [alookup_insert, if_neg hak]

/-! ## The claims about the parameter-set builder -/

theorem subKeys_foldl_delStep (P : FCAttr → Bool) (reg : List FCAttr) (M : FCMap) :
    subKeys (reg.foldl (delStep P) M) M = true := by
  rw [subKeys, List.all_eq_true]
  intro k hk
  have hsome := (mem_keys_iff_isSome _ k).mp hk
  rw [alookup_foldl_delStep] at hsome
  by_cases hany : reg.any (fun a => decide (a.name = k) && P a) = true
  · rw [if_pos hany] at hsome
    exact absurd hsome (by simp)
  · rw [Bool.not_eq_true] at hany
    rw [if_neg (by rw [hany]; exact fun hh => Bool.noConfusion hh)] at hsome
    exact hsome

/-- C5.  Subset property: every calculator name present as a key in any of
the four derived variants (minimal, efficient, index-based, time-based) is
also a key of the comprehensive set. -/
theorem variants_subset (reg : List FCAttr) :
    subKeys (minimalFC reg) (comprehensive reg) = true ∧
    subKeys (efficientFC reg) (comprehensive reg) = true ∧
    subKeys (indexBasedFC reg) (comprehensive reg) = true ∧
    subKeys (timeBasedFC reg) (comprehensive reg) = true :=
  ⟨subKeys_foldl_delStep _ reg _, subKeys_foldl_delStep _ reg _,
   subKeys_foldl_delStep _ reg _, subKeys_foldl_delStep _ reg _⟩

/-- C6.  Minimal-variant filter: the minimal variant keeps exactly the
comprehensive-set entries whose registry attribute carries a truthy
`minimal` flag (with their values unchanged); a name whose attribute lacks
the flag, or that is no attribute at all, is absent. -/
theorem minimal_filter (reg : List FCAttr)
    (hn : (reg.map FCAttr.name).Nodup)
    (hcov : ((comprehensive reg).map Prod.fst).all (hasattrB reg) = true)
    (k : Str) :
    alookup (minimalFC reg) k =
      match regFind reg k with
      | some a => if a.minimalFlag then alookup (comprehensive reg) k else none
      | none => none := by
  have h1 : alookup (minimalFC reg) k =
      if reg.any (fun a => decide (a.name = k) && !a.minimalFlag) then none
      else alookup (comprehensive reg) k := alookup_foldl_delStep _ reg _ k
  rw [h1, any_name_nodup reg k _ hn]
  cases hfind : regFind reg k with
  | some a =>
    cases hm : a.minimalFlag with
    | true => simp only [hm, Bool.not_true, Bool.false_eq_true, if_false, if_true]
    | false => simp only [hm, Bool.not_false, if_true, Bool.false_eq_true, if_false]
  | none =>
    simp only [Bool.false_eq_true, if_false]
    cases halo : alookup (comprehensive reg) k with
    | none => rfl
    | some v =>
      have hkmem := (mem_keys_iff_isSome (comprehensive reg) k).mpr
        (by rw [halo]; rfl)
      rw [List.all_eq_true] at hcov
      obtain ⟨a, hfa⟩ := hasattrB_regFind reg k (hcov k hkmem)
      rw [hfind] at hfa
      exact Option.noConfusion hfa

/-- C6 witness: in the concrete registry, `quantile` (no `minimal` flag)
is characterized by the filter at the concrete key. -/
theorem minimal_filter_witness :
    ((regW.map FCAttr.name).Nodup) ∧
    (((comprehensive regW).map Prod.fst).all (hasattrB regW) = true) ∧
    (alookup (minimalFC regW) ("quantile".data) =
      match regFind regW ("quantile".data) with
      | some a =>
        if a.minimalFlag then alookup (comprehensive regW) ("quantile".data)
        else none
      | none => none) :=
  ⟨by decide, by decide, minimal_filter regW (by decide) (by decide) ("quantile".data)⟩

/-- C7.  Efficient-variant filter: the efficient variant equals the
comprehensive set minus exactly the entries whose registry attribute is
flagged `high_comp_cost`; every other entry is retained with its value
unchanged. -/
theorem efficient_filter (reg : List FCAttr)
    (hn : (reg.map FCAttr.name).Nodup) (k : Str) :
    alookup (efficientFC reg) k =
      match regFind reg k with
      | some a =>
        if a.hasHighCompCost then none else alookup (comprehensive reg) k
      | none => alookup (comprehensive reg) k := by
  have h1 : alookup (efficientFC reg) k =
      if reg.any (fun a => decide (a.name = k) && a.hasHighCompCost) then none
      else alookup (comprehensive reg) k := alookup_foldl_delStep _ reg _ k
  rw [h1, any_name_nodup reg k _ hn]
  cases hfind : regFind reg k with
  | some a =>
    cases hcc : a.hasHighCompCost with
    | true => simp only [hcc, if_true]
    | false => simp only [hcc, Bool.false_eq_true, if_false]
  | none => simp only [Bool.false_eq_true, if_false]

/-- C7 witness: the filter characterization at the concrete key
`approximate_entropy`, which carries the `high_comp_cost` flag. -/
theorem efficient_filter_witness :
    ((regW.map FCAttr.name).Nodup) ∧
    (alookup (efficientFC regW) ("approximate_entropy".data) =
      match regFind regW ("approximate_entropy".data) with
      | some a =>
        if a.hasHighCompCost then none
        else alookup (comprehensive regW) ("approximate_entropy".data)
      | none => alookup (comprehensive regW) ("approximate_entropy".data)) :=
  ⟨by decide, efficient_filter regW (by decide) ("approximate_entropy".data)⟩

/-- C8.  Comprehensive-set construction: a name maps to its overlay-table
grid when the hand-authored overlay has it, otherwise to `None` exactly
when some module attribute of that name is callable, carries `fctype` and
takes one positional argument, and is absent otherwise — i.e. the overlay
is merged over the introspected `None` entries with precedence. -/
theorem comprehensive_lookup (reg : List FCAttr) (k : Str) :
    alookup (comprehensive reg) k =
      match alookup overlayTable k with
      | some v => some v
      | none =>
        if reg.any (fun a => decide (a.name = k) &&
            (a.isCallable && a.hasFctype && a.nargs == 1)) then some none
        else none := by
  have hnd : (overlayTable.map Prod.fst).Nodup := by decide
  have h1 : alookup (comprehensive reg) k =
      match alookup overlayTable k with
      | some v => some v
      | none => alookup (step1 reg) k :=
    alookup_dictUpdate overlayTable (step1 reg) k hnd
  rw [h1, alookup_step1]
